import Mathlib

/-!
Verification of the derived-metrics and scoring pipeline of
`final_boss_presentation.py`: row normalization (finish flag, status
category, age buckets), circuit difficulty tiers, and the Final Boss
candidate filtering / min-max normalization / composite scoring.

Numbers are modelled as exact rationals (`ℚ`); missing tabular values are
modelled as `Option`.  Each definition mirrors one function or pipeline
step of the source file.  String operations are modelled on the
underlying character lists so that they compute in the kernel.
-/

namespace F1

/-- Python `str(x)` applied to the status column: a missing value is the
float NaN, whose string form is `"nan"`. -/
def pyStr : Option String → String
  | none => "nan"
  | some s => s

/-- Python `str.lower()` (character-wise, as used on the ASCII status texts). -/
def pyLower (s : String) : String :=
  ⟨s.data.map Char.toLower⟩

/-- Python `s.startswith(t)`. -/
def pyStartsWith (s t : String) : Bool :=
  t.data.isPrefixOf s.data

/-- Python substring test `needle in hay`. -/
def containsSub (hay needle : String) : Bool :=
  hay.data.tails.any (fun t => needle.data.isPrefixOf t)

/-- `is_finished` from the source: `pd.isna(status)` gives `False`;
otherwise `s == "Finished" or s.startswith("+")` (case-sensitive). -/
def is_finished (status : Option String) : Bool :=
  match status with
  | none => false
  | some s => s == "Finished" || pyStartsWith s "+"

/-- The first branch of `classify_status`: the lowercased status text is
exactly "finished" or starts with "+". -/
def finished_rule (s : String) : Bool :=
  pyLower s == "finished" || pyStartsWith (pyLower s) "+"

/-- The mechanical-failure keyword list of `classify_status` (note
`"power unit"` is written with a space in the source). -/
def mech_keywords : List String :=
  ["engine", "gearbox", "hydraulics", "electrical", "transmission",
   "brake", "clutch", "suspension", "power unit", "turbo"]

/-- The accident keyword list of `classify_status`. -/
def accident_keywords : List String :=
  ["accident", "collision", "spun", "crash"]

/-- `classify_status` from the source: lowercase `str(status)`, then first
match wins in the order Finished, Mechanical DNF, Accident, Other DNF. -/
def classify_status (status : Option String) : String :=
  if finished_rule (pyStr status) then "Finished"
  else if mech_keywords.any (fun k => containsSub (pyLower (pyStr status)) k)
    then "Mechanical DNF"
  else if accident_keywords.any (fun k => containsSub (pyLower (pyStr status)) k)
    then "Accident"
  else "Other DNF"

/-- The keyword set exactly as claim C8 spells it: `"power-unit"` with a
hyphen, which differs from the source's `"power unit"`. -/
def claim_mech_keywords : List String :=
  ["engine", "gearbox", "hydraulics", "electrical", "transmission",
   "brake", "clutch", "suspension", "power-unit", "turbo"]

/-- `pandas.Series.min()` over the column values (0 on an empty column,
a case the pipeline never relies on). -/
def seriesMin : List ℚ → ℚ
  | [] => 0
  | v :: vs => vs.foldr min v

/-- `pandas.Series.max()` over the column values (0 on an empty column). -/
def seriesMax : List ℚ → ℚ
  | [] => 0
  | v :: vs => vs.foldr max v

/-- The guard constant `1e-10` of the source's `normalize`. -/
def eps : ℚ := 1e-10

/-- The source's `normalize` applied to one value `x` of a column `vs`:
`(x - s.min()) / (s.max() - s.min() + 1e-10)`. -/
def normAt (x : ℚ) (vs : List ℚ) : ℚ :=
  (x - seriesMin vs) / (seriesMax vs - seriesMin vs + eps)

/-- The source's `normalize` on a whole column. -/
def normalize (vs : List ℚ) : List ℚ :=
  vs.map (fun x => normAt x vs)

/-- One row of `driver_summary` before the `ppr_hard` merge: driver key,
career race count, and the three per-driver aggregate columns used by the
scorer. -/
structure DriverSummaryRow where
  driver : String
  races : Nat
  points_per_race : ℚ
  finish_rate : ℚ
  avg_position_delta : ℚ
deriving DecidableEq

/-- One row of `driver_diff` (the driver × difficulty aggregation):
race count and mean points within that tier. -/
structure DriverDiffRow where
  driver : String
  difficulty : String
  races : Nat
  ppr : ℚ
deriving DecidableEq

/-- One row of `driver_summary` after the left merge: `ppr_hard` is
`none` where the merge found no Hard-tier row (pandas NaN). -/
structure MergedRow where
  driver : String
  races : Nat
  points_per_race : ℚ
  finish_rate : ℚ
  avg_position_delta : ℚ
  ppr_hard : Option ℚ
deriving DecidableEq

/-- Attach a `ppr_hard` value to a summary row. -/
def mergeRow (s : DriverSummaryRow) (ph : Option ℚ) : MergedRow :=
  ⟨s.driver, s.races, s.points_per_race, s.finish_rate, s.avg_position_delta, ph⟩

/-- `driver_hard`: the `driver_diff` rows with difficulty "Hard" and at
least `min_races_per_tier = 10` races. -/
def driver_hard (dd : List DriverDiffRow) : List DriverDiffRow :=
  dd.filter (fun h => h.difficulty == "Hard" && decide (10 ≤ h.races))

/-- The `driver_summary.merge(driver_hard[...], on="driver", how="left")`
step: each summary row is joined with every matching Hard row, or kept
once with a missing `ppr_hard` when no row matches. -/
def mergeLeft (ds : List DriverSummaryRow) (dh : List DriverDiffRow) : List MergedRow :=
  ds.bind (fun s =>
    if (dh.filter (fun h => h.driver == s.driver)).isEmpty then [mergeRow s none]
    else (dh.filter (fun h => h.driver == s.driver)).map (fun h => mergeRow s (some h.ppr)))

/-- The candidate filter of the source: `races >= 50` and
`ppr_hard.notna()`. -/
def candidates (rows : List MergedRow) : List MergedRow :=
  rows.filter (fun r => decide (50 ≤ r.races) && r.ppr_hard.isSome)

/-- Reading the `ppr_hard` float of a candidate row (the filter
guarantees it is present). -/
def pprHardVal (r : MergedRow) : ℚ :=
  r.ppr_hard.getD 0

/-- Min-max normalized value of column `col` for row `r` within the
candidate set `cs` (the source's `normalize(candidates[col])` at `r`). -/
def colNorm (col : MergedRow → ℚ) (cs : List MergedRow) (r : MergedRow) : ℚ :=
  normAt (col r) (cs.map col)

/-- The composite `final_boss_score` of row `r` over candidate set `cs`:
`norm_ppr*0.30 + norm_finish*0.20 + norm_delta*0.20 + norm_hard*0.30`. -/
def final_boss_score (cs : List MergedRow) (r : MergedRow) : ℚ :=
  colNorm (fun t => t.points_per_race) cs r * 0.30 +
  colNorm (fun t => t.finish_rate) cs r * 0.20 +
  colNorm (fun t => t.avg_position_delta) cs r * 0.20 +
  colNorm (fun t => pprHardVal t) cs r * 0.30

/-- Stable descending insertion: a row is placed before the first row of
strictly smaller score, so earlier rows win ties (pandas `nlargest`
keeps first). -/
def insertDesc (key : MergedRow → ℚ) (a : MergedRow) : List MergedRow → List MergedRow
  | [] => [a]
  | b :: bs => if key b < key a then a :: b :: bs else b :: insertDesc key a bs

/-- Stable descending sort by `key`. -/
def sortDesc (key : MergedRow → ℚ) : List MergedRow → List MergedRow
  | [] => []
  | a :: as => insertDesc key a (sortDesc key as)

/-- `candidates.nlargest(15, "final_boss_score")`. -/
def top_15 (cs : List MergedRow) : List MergedRow :=
  (sortDesc (fun r => final_boss_score cs r) cs).take 15

/-- `winner = top_15.iloc[0]`: pandas `.iloc[0]` raises `IndexError` on an
empty frame. -/
def winner (cs : List MergedRow) : Except String MergedRow :=
  match top_15 cs with
  | [] => Except.error "IndexError: single positional indexer is out-of-bounds"
  | w :: _ => Except.ok w

/-- The ranked Final Boss candidate output, from the raw `driver_summary`
and `driver_diff` tables. -/
def final_boss_ranking (ds : List DriverSummaryRow) (dd : List DriverDiffRow) :
    List MergedRow :=
  top_15 (candidates (mergeLeft ds (driver_hard dd)))

/-- Retrieve one of the four underlying metrics of a candidate row. -/
def metricGet (i : Fin 4) (r : MergedRow) : ℚ :=
  match i with
  | ⟨0, _⟩ => r.points_per_race
  | ⟨1, _⟩ => r.finish_rate
  | ⟨2, _⟩ => r.avg_position_delta
  | ⟨3, _⟩ => pprHardVal r

/-- Replace one of the four underlying metrics of a candidate row. -/
def metricSet (i : Fin 4) (r : MergedRow) (x : ℚ) : MergedRow :=
  match i with
  | ⟨0, _⟩ => { r with points_per_race := x }
  | ⟨1, _⟩ => { r with finish_rate := x }
  | ⟨2, _⟩ => { r with avg_position_delta := x }
  | ⟨3, _⟩ => { r with ppr_hard := some x }

/-- Example summary row: a driver with 60 career races. -/
def exSummaryA : DriverSummaryRow := ⟨"A", 60, 10, 9/10, 2⟩

/-- Example tier row: the same driver with 15 Hard-tier races at 12 points
per race. -/
def exHardA : DriverDiffRow := ⟨"A", "Hard", 15, 12⟩

/-- Example summary row: a driver with only 10 career races. -/
def exSummaryB : DriverSummaryRow := ⟨"B", 10, 1, 1, 0⟩

/-- Example candidate row (already merged). -/
def exRowA : MergedRow := ⟨"A", 60, 5, 1, 0, some 5⟩

/-- Second example candidate row. -/
def exRowB : MergedRow := ⟨"B", 70, 2, 1/2, 1, some 3⟩

/-- One row of `circuit_stats`: distinct race count, entry count, and
finish count for one circuit. -/
structure CircuitStat where
  circuit_name : String
  races : Nat
  entries : Nat
  finishes : Nat
deriving DecidableEq

/-- `dnf_rate = 1 - finishes / entries`. -/
def dnf_rate (c : CircuitStat) : ℚ :=
  1 - (c.finishes : ℚ) / (c.entries : ℚ)

/-- Ascending insertion into a sorted list of rationals. -/
def insertAsc (a : ℚ) : List ℚ → List ℚ
  | [] => [a]
  | b :: bs => if a ≤ b then a :: b :: bs else b :: insertAsc a bs

/-- Ascending sort, as the quantile computation sorts its values. -/
def sortAsc : List ℚ → List ℚ
  | [] => []
  | a :: as => insertAsc a (sortAsc as)

/-- `pandas.Series.quantile(q)` with the default linear interpolation:
on sorted values `x_0 … x_(n-1)`, with `h = q·(n-1)`, `j = ⌊h⌋` and
`g = h - j`, the quantile is `x_j + g·(x_(j+1) - x_j)`. -/
def pandasQuantile (q : ℚ) (l : List ℚ) : ℚ :=
  match sortAsc l with
  | [] => 0
  | v :: vs =>
    let s := v :: vs
    let h : ℚ := q * ((s.length : ℚ) - 1)
    let j : Nat := (⌊h⌋).toNat
    let g : ℚ := h - (j : ℚ)
    let xj := s.getD j 0
    let xj1 := s.getD (j + 1) xj
    xj + g * (xj1 - xj)

/-- A circuit difficulty tier. -/
inductive Tier where
  | Easy : Tier
  | Medium : Tier
  | Hard : Tier
deriving DecidableEq

/-- The tier lambda of the source: Easy if `x ≤ q33`, Medium if `x ≤ q66`,
else Hard. -/
def assignTier (q33 q66 x : ℚ) : Tier :=
  if x ≤ q33 then Tier.Easy else if x ≤ q66 then Tier.Medium else Tier.Hard

/-- The difficulty tier of circuit `c` within circuit set `circuits`,
using the 33rd and 66th `dnf_rate` percentiles over all circuits. -/
def circuitTier (circuits : List CircuitStat) (c : CircuitStat) : Tier :=
  assignTier (pandasQuantile 0.33 (circuits.map dnf_rate))
    (pandasQuantile 0.66 (circuits.map dnf_rate)) (dnf_rate c)

/-- The `dnf_rate` column of the circuits assigned tier `t`. -/
def tierRates (circuits : List CircuitStat) (t : Tier) : List ℚ :=
  (circuits.filter (fun c => decide (circuitTier circuits c = t))).map dnf_rate

/-- The fixed age-bucket edges `[18, 22, 25, 30, 35, 40, 100]` of
`pd.cut`. -/
def age_bins : List ℚ := [18, 22, 25, 30, 35, 40, 100]

/-- The age-bucket labels. -/
def age_labels : List String :=
  ["18–22", "22–25", "25–30", "30–35", "35–40", "40+"]

/-- `pd.cut(x, bins, labels, right=False)` at one value: the label of the
first half-open interval `[b_i, b_(i+1))` holding `a`, or none (pandas
NaN) when `a` lies outside every interval. -/
def pdCut (a : ℚ) : List ℚ → List String → Option String
  | b1 :: b2 :: bs, lab :: labs =>
    if b1 ≤ a ∧ a < b2 then some lab else pdCut a (b2 :: bs) labs
  | _, _ => none

/-- The source's `age_bin` derived column. -/
def age_bin (a : ℚ) : Option String :=
  pdCut a age_bins age_labels

/-- Example circuit with dnf_rate 1/10. -/
def exCir1 : CircuitStat := ⟨"c1", 2, 10, 9⟩

/-- Example circuit with dnf_rate 1/2. -/
def exCir2 : CircuitStat := ⟨"c2", 2, 10, 5⟩

/-- Example circuit with dnf_rate 9/10. -/
def exCir3 : CircuitStat := ⟨"c3", 2, 10, 1⟩

theorem foldr_min_le_init (a : ℚ) (l : List ℚ) : List.foldr min a l ≤ a := by
  induction l with
  | nil => exact le_refl a
  | cons x xs ih => exact le_trans (min_le_right x _) ih

theorem foldr_min_le_mem (a x : ℚ) (l : List ℚ) (hx : x ∈ l) :
    List.foldr min a l ≤ x := by
  induction l with
  | nil => cases hx
  | cons b xs ih =>
    rcases List.mem_cons.mp hx with h | h
    · rw [h]
      exact min_le_left b (List.foldr min a xs)
    · exact le_trans (min_le_right b _) (ih h)

theorem init_le_foldr_max (a : ℚ) (l : List ℚ) : a ≤ List.foldr max a l := by
  induction l with
  | nil => exact le_refl a
  | cons x xs ih => exact le_trans ih (le_max_right x _)

theorem mem_le_foldr_max (a x : ℚ) (l : List ℚ) (hx : x ∈ l) :
    x ≤ List.foldr max a l := by
  induction l with
  | nil => cases hx
  | cons b xs ih =>
    rcases List.mem_cons.mp hx with h | h
    · rw [h]
      exact le_max_left b (List.foldr max a xs)
    · exact le_trans (ih h) (le_max_right b _)

theorem foldr_min_init_comm (a b : ℚ) (l : List ℚ) :
    min b (List.foldr min a l) = min a (List.foldr min b l) := by
  induction l with
  | nil => exact min_comm b a
  | cons x xs ih =>
    simp only [List.foldr_cons]
    rw [min_left_comm b x, ih, min_left_comm a x]

theorem foldr_max_init_comm (a b : ℚ) (l : List ℚ) :
    max b (List.foldr max a l) = max a (List.foldr max b l) := by
  induction l with
  | nil => exact max_comm b a
  | cons x xs ih =>
    simp only [List.foldr_cons]
    rw [max_left_comm b x, ih, max_left_comm a x]

theorem foldr_min_extract (a c : ℚ) (p q : List ℚ) :
    List.foldr min a (p ++ c :: q) = min c (List.foldr min a (p ++ q)) := by
  induction p with
  | nil => rfl
  | cons x xs ih =>
    simp only [List.cons_append, List.foldr_cons]
    rw [ih, min_left_comm x c]

theorem foldr_max_extract (a c : ℚ) (p q : List ℚ) :
    List.foldr max a (p ++ c :: q) = max c (List.foldr max a (p ++ q)) := by
  induction p with
  | nil => rfl
  | cons x xs ih =>
    simp only [List.cons_append, List.foldr_cons]
    rw [ih, max_left_comm x c]

/-- Extracting one element of a nonempty-rest series minimum. -/
theorem seriesMin_extract (c : ℚ) (p q : List ℚ) (h : p ++ q ≠ []) :
    seriesMin (p ++ c :: q) = min c (seriesMin (p ++ q)) := by
  cases p with
  | nil =>
    cases q with
    | nil => exact absurd rfl h
    | cons v vs =>
      show List.foldr min c (v :: vs) = min c (List.foldr min v vs)
      simp only [List.foldr_cons]
      exact foldr_min_init_comm c v vs
  | cons x xs =>
    show List.foldr min x (xs ++ c :: q) = min c (seriesMin (x :: (xs ++ q)))
    rw [foldr_min_extract]
    rfl

theorem seriesMax_extract (c : ℚ) (p q : List ℚ) (h : p ++ q ≠ []) :
    seriesMax (p ++ c :: q) = max c (seriesMax (p ++ q)) := by
  cases p with
  | nil =>
    cases q with
    | nil => exact absurd rfl h
    | cons v vs =>
      show List.foldr max c (v :: vs) = max c (List.foldr max v vs)
      simp only [List.foldr_cons]
      exact foldr_max_init_comm c v vs
  | cons x xs =>
    show List.foldr max x (xs ++ c :: q) = max c (seriesMax (x :: (xs ++ q)))
    rw [foldr_max_extract]
    rfl

theorem seriesMin_le_mem (l : List ℚ) (x : ℚ) (hx : x ∈ l) :
    seriesMin l ≤ x := by
  cases l with
  | nil => cases hx
  | cons v vs =>
    rcases List.mem_cons.mp hx with h | h
    · exact h ▸ foldr_min_le_init v vs
    · exact foldr_min_le_mem v x vs h

theorem mem_le_seriesMax (l : List ℚ) (x : ℚ) (hx : x ∈ l) :
    x ≤ seriesMax l := by
  cases l with
  | nil => cases hx
  | cons v vs =>
    rcases List.mem_cons.mp hx with h | h
    · exact h ▸ init_le_foldr_max v vs
    · exact mem_le_foldr_max v x vs h

theorem seriesMin_le_seriesMax (l : List ℚ) (h : l ≠ []) :
    seriesMin l ≤ seriesMax l := by
  cases l with
  | nil => exact absurd rfl h
  | cons v vs =>
    exact le_trans (foldr_min_le_init v vs) (init_le_foldr_max v vs)

theorem eps_pos : (0 : ℚ) < eps := by norm_num [eps]

theorem ratio_mono (u v : ℚ) (hu : 0 ≤ u) (huv : u ≤ v) :
    u / (u + eps) ≤ v / (v + eps) := by
  have he := eps_pos
  rw [div_le_div_iff (by linarith) (by linarith)]
  nlinarith

/-- Core monotonicity of one min-max normalized entry: with the other
values' minimum `m` and maximum `M` fixed, the normalized value of the
varying entry is non-decreasing in that entry. -/
theorem normAt_core_mono (m M x y : ℚ) (hmM : m ≤ M) (hxy : x ≤ y) :
    (x - min x m) / (max x M - min x m + eps) ≤
      (y - min y m) / (max y M - min y m + eps) := by
  have he := eps_pos
  rcases le_total y m with hym | hmy
  · have hxm : x ≤ m := le_trans hxy hym
    rw [min_eq_left hxm, min_eq_left hym]
    simp
  · rcases le_total x m with hxm | hmx
    · rw [min_eq_left hxm, min_eq_right hmy]
      simp only [sub_self, zero_div]
      have hyM : y ≤ max y M := le_max_left y M
      exact div_nonneg (by linarith) (by linarith)
    · rw [min_eq_right hmx, min_eq_right hmy]
      rcases le_total y M with hyM | hMy
      · have hxM : x ≤ M := le_trans hxy hyM
        rw [max_eq_right hxM, max_eq_right hyM]
        have hD : 0 < M - m + eps := by linarith
        rw [div_le_div_iff hD hD]
        nlinarith
      · rcases le_total x M with hxM | hMx
        · rw [max_eq_right hxM, max_eq_left hMy]
          have hD : 0 < M - m + eps := by linarith
          calc (x - m) / (M - m + eps) ≤ (M - m) / (M - m + eps) := by
                rw [div_le_div_iff hD hD]
                nlinarith
            _ = (M - m) / ((M - m) + eps) := by ring_nf
            _ ≤ (y - m) / ((y - m) + eps) :=
                ratio_mono (M - m) (y - m) (by linarith) (by linarith)
            _ = (y - m) / (y - m + eps) := by ring_nf
        · rw [max_eq_left hMx, max_eq_left hMy]
          calc (x - m) / (x - m + eps)
              = (x - m) / ((x - m) + eps) := by ring_nf
            _ ≤ (y - m) / ((y - m) + eps) :=
                ratio_mono (x - m) (y - m) (by linarith) (by linarith)
            _ = (y - m) / (y - m + eps) := by ring_nf

/-- List-level monotonicity: the normalized value of the entry at a fixed
position is non-decreasing in that entry, all other entries held fixed,
even though the column minimum and maximum are recomputed. -/
theorem normAt_mono_list (p q : List ℚ) (x y : ℚ) (hxy : x ≤ y) :
    normAt x (p ++ x :: q) ≤ normAt y (p ++ y :: q) := by
  cases hpq : p ++ q with
  | nil =>
    have hp : p = [] := (List.append_eq_nil.mp hpq).1
    have hq : q = [] := (List.append_eq_nil.mp hpq).2
    subst hp; subst hq
    have h1 : normAt x ([] ++ [x]) = 0 := by
      show (x - seriesMin [x]) / _ = 0
      have hm : seriesMin [x] = x := rfl
      rw [hm]
      simp
    have h2 : normAt y ([] ++ [y]) = 0 := by
      show (y - seriesMin [y]) / _ = 0
      have hm : seriesMin [y] = y := rfl
      rw [hm]
      simp
    rw [h1, h2]
  | cons a l =>
    have hne : p ++ q ≠ [] := by rw [hpq]; exact List.cons_ne_nil a l
    show (x - seriesMin (p ++ x :: q)) / (seriesMax (p ++ x :: q) - seriesMin (p ++ x :: q) + eps) ≤
      (y - seriesMin (p ++ y :: q)) / (seriesMax (p ++ y :: q) - seriesMin (p ++ y :: q) + eps)
    rw [seriesMin_extract x p q hne, seriesMax_extract x p q hne,
        seriesMin_extract y p q hne, seriesMax_extract y p q hne]
    exact normAt_core_mono (seriesMin (p ++ q)) (seriesMax (p ++ q)) x y
      (seriesMin_le_seriesMax (p ++ q) hne) hxy

theorem mem_insertDesc (key : MergedRow → ℚ) (a x : MergedRow) (l : List MergedRow)
    (hx : x ∈ insertDesc key a l) : x = a ∨ x ∈ l := by
  induction l with
  | nil => simpa [insertDesc] using hx
  | cons b bs ih =>
    rw [insertDesc] at hx
    by_cases h : key b < key a
    · rw [if_pos h] at hx
      rcases List.mem_cons.mp hx with h1 | h1
      · exact Or.inl h1
      · exact Or.inr h1
    · rw [if_neg h] at hx
      rcases List.mem_cons.mp hx with h1 | h1
      · exact Or.inr (h1 ▸ List.mem_cons_self b bs)
      · rcases ih h1 with h2 | h2
        · exact Or.inl h2
        · exact Or.inr (List.mem_cons_of_mem b h2)

theorem mem_sortDesc (key : MergedRow → ℚ) (x : MergedRow) (l : List MergedRow)
    (hx : x ∈ sortDesc key l) : x ∈ l := by
  induction l with
  | nil => simpa [sortDesc] using hx
  | cons a as ih =>
    rw [sortDesc] at hx
    rcases mem_insertDesc key a x (sortDesc key as) hx with h | h
    · exact h ▸ List.mem_cons_self a as
    · exact List.mem_cons_of_mem a (ih h)

theorem map_update_eq (col : MergedRow → ℚ) (pre post : List MergedRow)
    (a b : MergedRow) (h : col a = col b) :
    (pre ++ a :: post).map col = (pre ++ b :: post).map col := by
  simp [List.map_append, h]

theorem colNorm_update_eq (col : MergedRow → ℚ) (pre post : List MergedRow)
    (a b : MergedRow) (h : col a = col b) :
    colNorm col (pre ++ a :: post) a = colNorm col (pre ++ b :: post) b := by
  rw [colNorm, colNorm, h, map_update_eq col pre post a b h]

theorem colNorm_update_mono (col : MergedRow → ℚ) (pre post : List MergedRow)
    (a b : MergedRow) (h : col a ≤ col b) :
    colNorm col (pre ++ a :: post) a ≤ colNorm col (pre ++ b :: post) b := by
  rw [colNorm, colNorm]
  have ha : (pre ++ a :: post).map col = pre.map col ++ col a :: post.map col := by
    simp
  have hb : (pre ++ b :: post).map col = pre.map col ++ col b :: post.map col := by
    simp
  rw [ha, hb]
  exact normAt_mono_list (pre.map col) (post.map col) (col a) (col b) h

theorem score_le_of_cols (pre post : List MergedRow) (a b : MergedRow)
    (h1 : colNorm (fun t => t.points_per_race) (pre ++ a :: post) a ≤
          colNorm (fun t => t.points_per_race) (pre ++ b :: post) b)
    (h2 : colNorm (fun t => t.finish_rate) (pre ++ a :: post) a ≤
          colNorm (fun t => t.finish_rate) (pre ++ b :: post) b)
    (h3 : colNorm (fun t => t.avg_position_delta) (pre ++ a :: post) a ≤
          colNorm (fun t => t.avg_position_delta) (pre ++ b :: post) b)
    (h4 : colNorm (fun t => pprHardVal t) (pre ++ a :: post) a ≤
          colNorm (fun t => pprHardVal t) (pre ++ b :: post) b) :
    final_boss_score (pre ++ a :: post) a ≤ final_boss_score (pre ++ b :: post) b := by
  rw [final_boss_score, final_boss_score]
  have w3 : (0 : ℚ) ≤ 0.30 := by norm_num
  have w2 : (0 : ℚ) ≤ 0.20 := by norm_num
  have m1 := mul_le_mul_of_nonneg_right h1 w3
  have m2 := mul_le_mul_of_nonneg_right h2 w2
  have m3 := mul_le_mul_of_nonneg_right h3 w2
  have m4 := mul_le_mul_of_nonneg_right h4 w3
  linarith

theorem foldr_max_le (a b : ℚ) (l : List ℚ) (ha : a ≤ b)
    (h : ∀ x ∈ l, x ≤ b) : List.foldr max a l ≤ b := by
  induction l with
  | nil => exact ha
  | cons x xs ih =>
    exact max_le (h x (List.mem_cons_self x xs))
      (ih (fun y hy => h y (List.mem_cons_of_mem x hy)))

theorem le_foldr_min (a b : ℚ) (l : List ℚ) (ha : b ≤ a)
    (h : ∀ x ∈ l, b ≤ x) : b ≤ List.foldr min a l := by
  induction l with
  | nil => exact ha
  | cons x xs ih =>
    exact le_min (h x (List.mem_cons_self x xs))
      (ih (fun y hy => h y (List.mem_cons_of_mem x hy)))

theorem seriesMax_le_of_forall (l : List ℚ) (b : ℚ) (hne : l ≠ [])
    (h : ∀ x ∈ l, x ≤ b) : seriesMax l ≤ b := by
  cases l with
  | nil => exact absurd rfl hne
  | cons v vs =>
    exact foldr_max_le v b vs (h v (List.mem_cons_self v vs))
      (fun y hy => h y (List.mem_cons_of_mem v hy))

theorem le_seriesMin_of_forall (l : List ℚ) (b : ℚ) (hne : l ≠ [])
    (h : ∀ x ∈ l, b ≤ x) : b ≤ seriesMin l := by
  cases l with
  | nil => exact absurd rfl hne
  | cons v vs =>
    exact le_foldr_min v b vs (h v (List.mem_cons_self v vs))
      (fun y hy => h y (List.mem_cons_of_mem v hy))

theorem tier_medium_le (q33 q66 x : ℚ) (h : assignTier q33 q66 x = Tier.Medium) :
    x ≤ q66 := by
  unfold assignTier at h
  split_ifs at h with h1 h2
  exact h2

theorem tier_hard_gt (q33 q66 x : ℚ) (h : assignTier q33 q66 x = Tier.Hard) :
    q66 < x := by
  unfold assignTier at h
  split_ifs at h with h1 h2
  exact lt_of_not_le h2

/-- C7: for every status string, `is_finished` is true iff the string is
exactly "Finished" or starts with "+"; in particular on the three quoted
examples. -/
theorem c7_is_finished_iff :
    (∀ s : String,
      is_finished (some s) = true ↔ (s = "Finished" ∨ pyStartsWith s "+" = true)) ∧
    is_finished (some "Finished") = true ∧
    is_finished (some "+1 Lap") = true ∧
    is_finished (some "Engine") = false := by
  refine ⟨fun s => ?_, by decide, by decide, by decide⟩
  simp [is_finished]

/-- C10: a missing (null) status never raises: the finished flag is
`false` and the status category is "Other DNF". -/
theorem c10_null_status :
    is_finished none = false ∧ classify_status none = "Other DNF" := by
  constructor
  · rfl
  · decide

/-- C6 counterexample: on the status "FINISHED" the derived
`status_category` is "Finished" even though the row's finished flag
(`is_finished`) is `false`, so "status_category = Finished iff the
finished flag is true" fails. -/
theorem c6_cex_case_mismatch :
    is_finished (some "FINISHED") = false ∧
    classify_status (some "FINISHED") = "Finished" := by
  refine ⟨by decide, by decide⟩

/-- C6 (amended): `status_category` is "Finished" iff the CASE-INSENSITIVE
finished rule matches (the lowercased status equals "finished" or starts
with "+"); this agrees with the case-sensitive finished flag only up to
case. -/
theorem c6_finished_category_iff (s : String) :
    classify_status (some s) = "Finished" ↔ finished_rule s = true := by
  cases h1 : finished_rule s with
  | true => simp [classify_status, pyStr, h1]
  | false =>
    simp only [classify_status, pyStr, h1, Bool.false_eq_true, if_false]
    constructor
    · intro h
      split_ifs at h <;> simp_all
    · intro h
      exact absurd h (by simp)

/-- C8 counterexample: the status "Power-unit" does not match the finished
rule and contains the claim's keyword "power-unit", yet the source
classifies it as "Other DNF", not "Mechanical DNF" (the source keyword is
"power unit" with a space). -/
theorem c8_cex_power_unit_hyphen :
    finished_rule (pyStr (some "Power-unit")) = false ∧
    claim_mech_keywords.any
      (fun k => containsSub (pyLower (pyStr (some "Power-unit"))) k) = true ∧
    classify_status (some "Power-unit") = "Other DNF" := by
  refine ⟨by decide, by decide, by decide⟩

/-- C8 (amended): for a status that is not classified Finished, the
category is "Mechanical DNF" iff the lowercased text contains one of the
source's mechanical keywords (with "power unit" spelt with a space);
otherwise "Accident" iff it contains an accident keyword; otherwise
"Other DNF". -/
theorem c8_dnf_classification (s : String)
    (h : classify_status (some s) ≠ "Finished") :
    (classify_status (some s) = "Mechanical DNF" ↔
       mech_keywords.any (fun k => containsSub (pyLower s) k) = true) ∧
    (classify_status (some s) = "Accident" ↔
       (mech_keywords.any (fun k => containsSub (pyLower s) k) = false ∧
        accident_keywords.any (fun k => containsSub (pyLower s) k) = true)) ∧
    (classify_status (some s) = "Other DNF" ↔
       (mech_keywords.any (fun k => containsSub (pyLower s) k) = false ∧
        accident_keywords.any (fun k => containsSub (pyLower s) k) = false)) := by
  have h1 : finished_rule s = false := by
    cases h1 : finished_rule s with
    | true => exact absurd (by simp [classify_status, pyStr, h1]) h
    | false => rfl
  cases h2 : mech_keywords.any (fun k => containsSub (pyLower s) k) with
  | true => simp [classify_status, pyStr, h1, h2]
  | false =>
    cases h3 : accident_keywords.any (fun k => containsSub (pyLower s) k) with
    | true => simp [classify_status, pyStr, h1, h2, h3]
    | false => simp [classify_status, pyStr, h1, h2, h3]

/-- C8 witness: the status "Engine" is not classified Finished, and the
amended characterization holds for it. -/
theorem c8_dnf_classification_witness :
    (classify_status (some "Engine") ≠ "Finished") ∧
    ((classify_status (some "Engine") = "Mechanical DNF" ↔
       mech_keywords.any (fun k => containsSub (pyLower "Engine") k) = true) ∧
    (classify_status (some "Engine") = "Accident" ↔
       (mech_keywords.any (fun k => containsSub (pyLower "Engine") k) = false ∧
        accident_keywords.any (fun k => containsSub (pyLower "Engine") k) = true)) ∧
    (classify_status (some "Engine") = "Other DNF" ↔
       (mech_keywords.any (fun k => containsSub (pyLower "Engine") k) = false ∧
        accident_keywords.any (fun k => containsSub (pyLower "Engine") k) = false))) :=
  ⟨by decide, c8_dnf_classification "Engine" (by decide)⟩

/-- C1: every row of the ranked Final Boss output has at least 50 career
races and a present (never defaulted) `ppr_hard`, which is exactly the
Hard-tier mean points of a `driver_diff` row for that driver with at
least 10 Hard-tier races; all other fields come from a real
`driver_summary` row. -/
theorem c1_ranked_candidates_filtered (ds : List DriverSummaryRow)
    (dd : List DriverDiffRow) (r : MergedRow)
    (hr : r ∈ final_boss_ranking ds dd) :
    50 ≤ r.races ∧ r.ppr_hard.isSome = true ∧
    ∃ s ∈ ds, ∃ h ∈ dd, h.driver = s.driver ∧ h.difficulty = "Hard" ∧
      10 ≤ h.races ∧ r = mergeRow s (some h.ppr) := by
  have hr1 : r ∈ candidates (mergeLeft ds (driver_hard dd)) := by
    have ht : r ∈ sortDesc
        (fun t => final_boss_score (candidates (mergeLeft ds (driver_hard dd))) t)
        (candidates (mergeLeft ds (driver_hard dd))) :=
      List.take_subset 15 _ hr
    exact mem_sortDesc _ r _ ht
  rcases List.mem_filter.mp hr1 with ⟨hmem, hcond⟩
  rw [Bool.and_eq_true] at hcond
  have h50 : 50 ≤ r.races := of_decide_eq_true hcond.1
  have hsome : r.ppr_hard.isSome = true := hcond.2
  refine ⟨h50, hsome, ?_⟩
  rcases List.mem_bind.mp hmem with ⟨s, hs, hrs⟩
  by_cases hemp :
      ((driver_hard dd).filter (fun h => h.driver == s.driver)).isEmpty = true
  · simp only [hemp, if_true] at hrs
    have : r = mergeRow s none := List.mem_singleton.mp hrs
    rw [this] at hsome
    simp [mergeRow] at hsome
  · simp only [hemp, if_false] at hrs
    rcases List.mem_map.mp hrs with ⟨h, hh, hreq⟩
    rcases List.mem_filter.mp hh with ⟨hh1, hdrv⟩
    rcases List.mem_filter.mp hh1 with ⟨hh2, hhard⟩
    rw [Bool.and_eq_true] at hhard
    refine ⟨s, hs, h, hh2, ?_, ?_, ?_, hreq.symm⟩
    · exact eq_of_beq hdrv
    · exact eq_of_beq hhard.1
    · exact of_decide_eq_true hhard.2

/-- C1 witness: with one 60-race driver having a 15-race Hard-tier row,
the merged row is ranked and satisfies the filter properties. -/
theorem c1_ranked_candidates_filtered_witness :
    50 ≤ (mergeRow exSummaryA (some exHardA.ppr)).races ∧
    (mergeRow exSummaryA (some exHardA.ppr)).ppr_hard.isSome = true ∧
    ∃ s ∈ [exSummaryA], ∃ h ∈ [exHardA], h.driver = s.driver ∧
      h.difficulty = "Hard" ∧ 10 ≤ h.races ∧
      mergeRow exSummaryA (some exHardA.ppr) = mergeRow s (some h.ppr) :=
  c1_ranked_candidates_filtered [exSummaryA] [exHardA]
    (mergeRow exSummaryA (some exHardA.ppr))
    (by
      have he : final_boss_ranking [exSummaryA] [exHardA] =
          [mergeRow exSummaryA (some exHardA.ppr)] := rfl
      rw [he]
      exact List.mem_singleton.mpr rfl)

/-- C5: the code raises on an empty candidate set.  With a single driver
of 10 career races, no candidate passes the filter, `top_15` is empty,
and the winner extraction `top_15.iloc[0]` is an IndexError instead of
an empty result. -/
theorem c5_empty_candidates_raises :
    candidates (mergeLeft [exSummaryB] (driver_hard [])) = [] ∧
    winner (candidates (mergeLeft [exSummaryB] (driver_hard []))) =
      Except.error "IndexError: single positional indexer is out-of-bounds" := by
  exact ⟨rfl, rfl⟩

/-- C2 counterexample: in a single-candidate set every column has zero
range, and the candidate holding the column maximum is normalized to
exactly 0, not to 1.0 within tolerance (it is more than 1/2 away). -/
theorem c2_cex_zero_range :
    (fun t : MergedRow => t.points_per_race) exRowA =
      seriesMax ([exRowA].map (fun t : MergedRow => t.points_per_race)) ∧
    colNorm (fun t => t.points_per_race) [exRowA] exRowA = 0 ∧
    1/2 < 1 - colNorm (fun t => t.points_per_race) [exRowA] exRowA := by
  refine ⟨rfl, ?_, ?_⟩ <;>
    norm_num [colNorm, normAt, seriesMin, seriesMax, exRowA, eps]

/-- C2 (amended): every normalized column value lies in [0,1]; the
column-minimum candidate maps to exactly 0; in a zero-range column every
candidate (including the maximum) maps to 0; and the column-maximum
candidate maps within 1e-6 of 1.0 whenever the column range is at least
1e-4. -/
theorem c2_normalized_bounds (cs : List MergedRow) (r : MergedRow)
    (col : MergedRow → ℚ) (hr : r ∈ cs) :
    (0 ≤ colNorm col cs r ∧ colNorm col cs r ≤ 1) ∧
    (col r = seriesMin (cs.map col) → colNorm col cs r = 0) ∧
    (seriesMax (cs.map col) = seriesMin (cs.map col) → colNorm col cs r = 0) ∧
    (col r = seriesMax (cs.map col) →
      1/10^4 ≤ seriesMax (cs.map col) - seriesMin (cs.map col) →
      1 - colNorm col cs r ≤ 1/10^6) := by
  have hv : col r ∈ cs.map col := List.mem_map_of_mem col hr
  have hmn : seriesMin (cs.map col) ≤ col r := seriesMin_le_mem _ _ hv
  have hmx : col r ≤ seriesMax (cs.map col) := mem_le_seriesMax _ _ hv
  have he := eps_pos
  have hd : 0 < seriesMax (cs.map col) - seriesMin (cs.map col) + eps := by
    linarith
  refine ⟨⟨?_, ?_⟩, ?_, ?_, ?_⟩
  · exact div_nonneg (by linarith) hd.le
  · rw [colNorm, normAt, div_le_one hd]
    linarith
  · intro h
    rw [colNorm, normAt, h, sub_self, zero_div]
  · intro h
    have hle : col r ≤ seriesMin (cs.map col) := h ▸ hmx
    have hreq : col r = seriesMin (cs.map col) := le_antisymm hle hmn
    rw [colNorm, normAt, hreq, sub_self, zero_div]
  · intro hmax hrange
    have hkey : 1 - (seriesMax (cs.map col) - seriesMin (cs.map col)) /
        (seriesMax (cs.map col) - seriesMin (cs.map col) + eps) =
        eps / (seriesMax (cs.map col) - seriesMin (cs.map col) + eps) := by
      field_simp
    rw [colNorm, normAt, hmax, hkey, div_le_iff hd]
    simp only [eps] at hrange ⊢
    norm_num at hrange ⊢
    linarith

/-- C2 witness: the amended boundedness statement at a concrete
two-candidate set and the points-per-race column. -/
theorem c2_normalized_bounds_witness :
    ((0 ≤ colNorm (fun t => t.points_per_race) [exRowA, exRowB] exRowA ∧
      colNorm (fun t => t.points_per_race) [exRowA, exRowB] exRowA ≤ 1) ∧
    ((fun t : MergedRow => t.points_per_race) exRowA =
        seriesMin ([exRowA, exRowB].map (fun t : MergedRow => t.points_per_race)) →
      colNorm (fun t => t.points_per_race) [exRowA, exRowB] exRowA = 0) ∧
    (seriesMax ([exRowA, exRowB].map (fun t : MergedRow => t.points_per_race)) =
        seriesMin ([exRowA, exRowB].map (fun t : MergedRow => t.points_per_race)) →
      colNorm (fun t => t.points_per_race) [exRowA, exRowB] exRowA = 0) ∧
    ((fun t : MergedRow => t.points_per_race) exRowA =
        seriesMax ([exRowA, exRowB].map (fun t : MergedRow => t.points_per_race)) →
      1/10^4 ≤ seriesMax ([exRowA, exRowB].map (fun t : MergedRow => t.points_per_race)) -
        seriesMin ([exRowA, exRowB].map (fun t : MergedRow => t.points_per_race)) →
      1 - colNorm (fun t => t.points_per_race) [exRowA, exRowB] exRowA ≤ 1/10^6)) :=
  c2_normalized_bounds [exRowA, exRowB] exRowA (fun t => t.points_per_race)
    (List.mem_cons_self exRowA [exRowB])

/-- C3: increasing any one of the four underlying metrics of a candidate,
holding everything else fixed, never decreases that candidate's composite
score, although the min-max normalization is recomputed over the changed
candidate set. -/
theorem c3_score_monotone (i : Fin 4) (pre post : List MergedRow)
    (r : MergedRow) (x : ℚ) (hx : metricGet i r ≤ x) :
    final_boss_score (pre ++ r :: post) r ≤
      final_boss_score (pre ++ metricSet i r x :: post) (metricSet i r x) := by
  fin_cases i
  · refine score_le_of_cols pre post r _ ?_ ?_ ?_ ?_
    · exact colNorm_update_mono _ pre post _ _ hx
    · exact le_of_eq (colNorm_update_eq _ pre post _ _ rfl)
    · exact le_of_eq (colNorm_update_eq _ pre post _ _ rfl)
    · exact le_of_eq (colNorm_update_eq _ pre post _ _ rfl)
  · refine score_le_of_cols pre post r _ ?_ ?_ ?_ ?_
    · exact le_of_eq (colNorm_update_eq _ pre post _ _ rfl)
    · exact colNorm_update_mono _ pre post _ _ hx
    · exact le_of_eq (colNorm_update_eq _ pre post _ _ rfl)
    · exact le_of_eq (colNorm_update_eq _ pre post _ _ rfl)
  · refine score_le_of_cols pre post r _ ?_ ?_ ?_ ?_
    · exact le_of_eq (colNorm_update_eq _ pre post _ _ rfl)
    · exact le_of_eq (colNorm_update_eq _ pre post _ _ rfl)
    · exact colNorm_update_mono _ pre post _ _ hx
    · exact le_of_eq (colNorm_update_eq _ pre post _ _ rfl)
  · refine score_le_of_cols pre post r _ ?_ ?_ ?_ ?_
    · exact le_of_eq (colNorm_update_eq _ pre post _ _ rfl)
    · exact le_of_eq (colNorm_update_eq _ pre post _ _ rfl)
    · exact le_of_eq (colNorm_update_eq _ pre post _ _ rfl)
    · exact colNorm_update_mono _ pre post _ _ hx

/-- C3 witness: raising the points-per-race of a concrete candidate from
5 to 7 in a two-candidate set does not decrease its score. -/
theorem c3_score_monotone_witness :
    metricGet ⟨0, by norm_num⟩ exRowA ≤ 7 ∧
    final_boss_score ([] ++ exRowA :: [exRowB]) exRowA ≤
      final_boss_score ([] ++ metricSet ⟨0, by norm_num⟩ exRowA 7 :: [exRowB])
        (metricSet ⟨0, by norm_num⟩ exRowA 7) :=
  ⟨by norm_num [metricGet, exRowA],
   c3_score_monotone ⟨0, by norm_num⟩ [] [exRowB] exRowA 7
     (by norm_num [metricGet, exRowA])⟩

/-- C4: with every circuit's `dnf_rate` defined (positive entry count),
every circuit receives exactly one tier of {Easy, Medium, Hard}, and
whenever both tiers are inhabited the minimum Hard `dnf_rate` is at
least the maximum Medium `dnf_rate`. -/
theorem c4_tier_partition (circuits : List CircuitStat)
    (hdef : ∀ c ∈ circuits, 0 < c.entries) :
    (∀ c ∈ circuits, circuitTier circuits c = Tier.Easy ∨
      circuitTier circuits c = Tier.Medium ∨ circuitTier circuits c = Tier.Hard) ∧
    (tierRates circuits Tier.Medium ≠ [] → tierRates circuits Tier.Hard ≠ [] →
      seriesMax (tierRates circuits Tier.Medium) ≤
        seriesMin (tierRates circuits Tier.Hard)) := by
  constructor
  · intro c hc
    unfold circuitTier assignTier
    split_ifs <;> simp
  · intro hmed hhard
    have hub : ∀ x ∈ tierRates circuits Tier.Medium,
        x ≤ pandasQuantile 0.66 (circuits.map dnf_rate) := by
      intro x hx
      rcases List.mem_map.mp hx with ⟨c, hcf, hxc⟩
      rcases List.mem_filter.mp hcf with ⟨hcmem, hcp⟩
      have htier : circuitTier circuits c = Tier.Medium := of_decide_eq_true hcp
      rw [← hxc]
      exact tier_medium_le _ _ (dnf_rate c) htier
    have hlb : ∀ x ∈ tierRates circuits Tier.Hard,
        pandasQuantile 0.66 (circuits.map dnf_rate) ≤ x := by
      intro x hx
      rcases List.mem_map.mp hx with ⟨c, hcf, hxc⟩
      rcases List.mem_filter.mp hcf with ⟨hcmem, hcp⟩
      have htier : circuitTier circuits c = Tier.Hard := of_decide_eq_true hcp
      rw [← hxc]
      exact le_of_lt (tier_hard_gt _ _ (dnf_rate c) htier)
    exact le_trans (seriesMax_le_of_forall _ _ hmed hub)
      (le_seriesMin_of_forall _ _ hhard hlb)

/-- C4 witness: three circuits with dnf rates 1/10, 1/2 and 9/10, all with
positive entry counts. -/
theorem c4_tier_partition_witness :
    (∀ c ∈ [exCir1, exCir2, exCir3], 0 < c.entries) ∧
    ((∀ c ∈ [exCir1, exCir2, exCir3],
      circuitTier [exCir1, exCir2, exCir3] c = Tier.Easy ∨
      circuitTier [exCir1, exCir2, exCir3] c = Tier.Medium ∨
      circuitTier [exCir1, exCir2, exCir3] c = Tier.Hard) ∧
    (tierRates [exCir1, exCir2, exCir3] Tier.Medium ≠ [] →
      tierRates [exCir1, exCir2, exCir3] Tier.Hard ≠ [] →
      seriesMax (tierRates [exCir1, exCir2, exCir3] Tier.Medium) ≤
        seriesMin (tierRates [exCir1, exCir2, exCir3] Tier.Hard))) :=
  ⟨by decide, c4_tier_partition [exCir1, exCir2, exCir3] (by decide)⟩

/-- C9 counterexample: an age of exactly 100 years is at least 40 but
falls outside the last `pd.cut` interval [40, 100), so it receives no
bucket at all instead of the claimed final 40+ bucket. -/
theorem c9_cex_age_100 :
    (40 : ℚ) ≤ 100 ∧ age_bin 100 = none := by
  refine ⟨by norm_num, ?_⟩
  norm_num [age_bin, age_bins, age_labels, pdCut]

/-- C9 (amended): every defined age in [18, 100) falls into exactly one
of the half-open buckets, and every age in [40, 100) falls into the
final 40+ bucket; ages outside [18, 100) receive no bucket. -/
theorem c9_age_buckets (a : ℚ) (h18 : 18 ≤ a) (h100 : a < 100) :
    (∃! lab, age_bin a = some lab) ∧ (40 ≤ a → age_bin a = some "40+") := by
  simp only [age_bin, age_bins, age_labels, pdCut]
  split_ifs with h1 h2 h3 h4 h5 h6
  · exact ⟨⟨"18–22", rfl, fun y hy => (Option.some_inj.mp hy).symm⟩,
      fun h40 => absurd h1.2 (by linarith)⟩
  · exact ⟨⟨"22–25", rfl, fun y hy => (Option.some_inj.mp hy).symm⟩,
      fun h40 => absurd h2.2 (by linarith)⟩
  · exact ⟨⟨"25–30", rfl, fun y hy => (Option.some_inj.mp hy).symm⟩,
      fun h40 => absurd h3.2 (by linarith)⟩
  · exact ⟨⟨"30–35", rfl, fun y hy => (Option.some_inj.mp hy).symm⟩,
      fun h40 => absurd h4.2 (by linarith)⟩
  · exact ⟨⟨"35–40", rfl, fun y hy => (Option.some_inj.mp hy).symm⟩,
      fun h40 => absurd h5.2 (by linarith)⟩
  · exact ⟨⟨"40+", rfl, fun y hy => (Option.some_inj.mp hy).symm⟩,
      fun _ => rfl⟩
  · exfalso
    push_neg at h1 h2 h3 h4 h5 h6
    have t1 := h1 h18
    have t2 := h2 t1
    have t3 := h3 t2
    have t4 := h4 t3
    have t5 := h5 t4
    have t6 := h6 t5
    linarith

/-- C9 witness: age 45 lies in [18, 100) and gets exactly the 40+
bucket. -/
theorem c9_age_buckets_witness :
    ((18 : ℚ) ≤ 45 ∧ (45 : ℚ) < 100) ∧
    ((∃! lab, age_bin 45 = some lab) ∧
      ((40 : ℚ) ≤ 45 → age_bin (45 : ℚ) = some "40+")) :=
  ⟨⟨by norm_num, by norm_num⟩, c9_age_buckets 45 (by norm_num) (by norm_num)⟩

end F1
